import Mathlib

/- Verification development for the image filter kernel library in
   src/image_processing.py: an edge-aware 2x resampler built on Newton
   divided-difference interpolation, a separable Gaussian blur whose kernel is
   discretized with the trapezoidal rule, and a tiled bilateral denoiser.

   Modelling conventions: a pixel buffer is a pair of dimensions together with
   a total pixel function (row, column, channel); numpy reads that may be out
   of bounds are modelled with Option (a read outside the declared extent is
   none, matching an IndexError).  The float64 arithmetic of the source is
   idealized as exact rational arithmetic where the code is purely rational,
   and as real arithmetic where the Gaussian exp / sqrt functions appear.
   Conversion of a float to uint8 (np.uint8 / astype(np.uint8) / int(...))
   truncates toward zero, i.e. Int.toNat of the floor for the nonnegative
   values that arise here. -/

/-- Dense RGB raster: height, width and an 8-bit pixel function
(row, column, channel), mirroring the row-major uint8 numpy arrays of the
source. -/
structure Img where
  h : ℕ
  w : ℕ
  pix : ℕ → ℕ → Fin 3 → ℕ

instance : Inhabited Img := ⟨⟨0, 0, fun _ _ _ => 0⟩⟩

/-- Bounds-checked pixel read, modelling numpy integer indexing
img_array[y, x]: an index outside the array raises, which we model as none. -/
def Img.read? (img : Img) (y x : ℕ) : Option (Fin 3 → ℕ) :=
  if y < img.h ∧ x < img.w then some (img.pix y x) else none

/-- The normalized x-coordinate array np.array([0.0, 1.0]) that process_row and
process_column pass to newton_interp_1d_numba. -/
def x01q : ℕ → ℚ := fun i => if i = 0 then 0 else 1

/-- The two sample values (one colour channel of two adjacent pixels) passed to
newton_interp_1d_numba as y_data. -/
def ypair (a b : ℕ) : ℕ → ℚ := fun i => if i = 0 then (a : ℚ) else (b : ℚ)

/-- Inner loop of newton_interp_1d_numba (lines 213-221 of
src/image_processing.py) computing the i-th entry of the divided-difference
table: term starts at y_data[i] and, for each j < i, the update
term := (term - y_data[j]) / (x_data[i] - x_data[j]) is performed unless
x_data[i] == x_data[j], in which case the loop body is skipped (continue).
A division whose denominator is zero would raise, modelled by the none
branch (it is unreachable because of the equality guard). -/
def dd_step (x_data y_data : ℕ → ℚ) (i : ℕ) (acc : Option ℚ) (j : ℕ) : Option ℚ :=
  acc.bind (fun term =>
    if x_data i = x_data j then some term
    else if x_data i - x_data j = 0 then none
    else some ((term - y_data j) / (x_data i - x_data j)))

/-- The full i-th divided difference: the fold of dd_step over j < i starting
from y_data[i]. -/
def dd_coeff (x_data y_data : ℕ → ℚ) (i : ℕ) : Option ℚ :=
  (List.range i).foldl (dd_step x_data y_data i) (some (y_data i))

/-- Evaluation loop of newton_interp_1d_numba (lines 224-229): result starts at
dd[0] and x_term at 1.0; for i = 1 .. n-1, x_term is multiplied by
(x_interp - x_data[i-1]) and dd[i] * x_term is added to the result.  The fold
index k stands for i - 1. -/
def newton_eval (x_data dd : ℕ → ℚ) (n : ℕ) (x_interp : ℚ) : ℚ :=
  ((List.range (n - 1)).foldl
    (fun st k =>
      (st.1 + dd (k + 1) * (st.2 * (x_interp - x_data k)),
       st.2 * (x_interp - x_data k)))
    (dd 0, 1)).1

/-- newton_interp_1d_numba (lines 187-231).  For n = 2 a closed-form blend is
used: t = (x_interp - x0)/(x1 - x0) when the x's differ (0.5 otherwise), and
when t < 0.5 it is remapped to 0.4 + 1.2*t before the blend; the n = 2 result
is returned without clamping.  For other n the divided-difference table is
built (with the coincident-x guard) and the polynomial is evaluated, the
result clamped to [0, 255].  For n = 0 the write dd[0] = y_data[0] into the
empty table would raise, modelled as none. -/
def newton_interp_1d_numba (n : ℕ) (x_data y_data : ℕ → ℚ) (x_interp : ℚ) : Option ℚ :=
  if n = 2 then
    some (
      let t0 : ℚ := if x_data 1 ≠ x_data 0 then (x_interp - x_data 0) / (x_data 1 - x_data 0) else 1/2
      let t : ℚ := if t0 < 1/2 then 2/5 + t0 * (6/5) else t0
      y_data 0 * (1 - t) + y_data 1 * t)
  else if n = 0 then none
  else if (∀ i, i < n → (dd_coeff x_data y_data i).isSome = true) then
    some (max 0 (min 255
      (newton_eval x_data (fun i => (dd_coeff x_data y_data i).getD 0) n x_interp)))
  else none

/-- The blend the specification asserts for the midpoint.  Modelled from the
spec: for interpolation parameter t the remap t' = 0.4 + 1.2*t is applied
before the linear blend, so the inserted midpoint would be
y0*(1 - t') + y1*t'.  This is the behaviour claim C1 attributes to every
inserted pixel; it is compared against newton_interp_1d_numba. -/
def sharpened_blend_spec (y0 y1 t : ℚ) : ℚ :=
  y0 * (1 - (2/5 + t * (6/5))) + y1 * (2/5 + t * (6/5))

/-- The smooth-region output formula of
compute_2x2_newton_interpolation_fast (line 137):
f00 + 0.5*((f10-f00)+(f01-f00)) + 0.25*((f11-f10)-(f01-f00)). -/
def newton_smooth (f00 f01 f10 f11 : ℚ) : ℚ :=
  f00 + (1/2) * ((f10 - f00) + (f01 - f00)) + (1/4) * ((f11 - f10) - (f01 - f00))

/-- Index of the first maximum of the four absolute deviations, as selected by
the strict-improvement scan of compute_2x2_newton_interpolation_fast
(lines 117-123): max_idx starts at 0 and is replaced only on a strictly
larger value. -/
def first_argmax4 (d0 d1 d2 d3 : ℚ) : ℕ :=
  let i1 := if d0 < d1 then 1 else 0
  let m1 := if d0 < d1 then d1 else d0
  let i2 := if m1 < d2 then 2 else i1
  let m2 := if m1 < d2 then d2 else m1
  if m2 < d3 then 3 else i2

/-- compute_2x2_newton_interpolation_fast (lines 84-142): per channel, if the
block's max - min exceeds the fixed edge threshold 30 the sample with the
largest absolute deviation from the block mean gets weight 0.55 and the
others 0.15; otherwise the divided-difference smooth formula is used.  The
result is clipped to [0, 255] and cast to uint8. -/
def compute_2x2_newton_interpolation_fast (block : Fin 2 → Fin 2 → Fin 3 → ℕ) : Fin 3 → ℕ :=
  fun c =>
    let f00 : ℚ := block 0 0 c
    let f01 : ℚ := block 0 1 c
    let f10 : ℚ := block 1 0 c
    let f11 : ℚ := block 1 1 c
    let maxv := max f00 (max f01 (max f10 f11))
    let minv := min f00 (min f01 (min f10 f11))
    let v : ℚ :=
      if 30 < maxv - minv then
        let avg := (f00 + f01 + f10 + f11) * (1/4)
        let idx := first_argmax4 |f00 - avg| |f01 - avg| |f10 - avg| |f11 - avg|
        f00 * (if idx = 0 then 11/20 else 3/20) + f01 * (if idx = 1 then 11/20 else 3/20)
          + f10 * (if idx = 2 then 11/20 else 3/20) + f11 * (if idx = 3 then 11/20 else 3/20)
      else newton_smooth f00 f01 f10 f11
    (⌊max 0 (min 255 v)⌋).toNat

/-- One destination pixel of process_downscale_fast (lines 144-165): if the
2x2 source block would stick out of the image, the clamped single source
pixel is copied; otherwise the block is read and
compute_2x2_newton_interpolation_fast is applied. -/
def downscale_pixel? (img : Img) (j i : ℕ) : Option (Fin 3 → ℕ) :=
  if img.h ≤ 2*j + 1 ∨ img.w ≤ 2*i + 1 then
    img.read? (min (2*j) (img.h - 1)) (min (2*i) (img.w - 1))
  else
    (img.read? (2*j) (2*i)).bind fun p00 =>
    (img.read? (2*j) (2*i + 1)).bind fun p01 =>
    (img.read? (2*j + 1) (2*i)).bind fun p10 =>
    (img.read? (2*j + 1) (2*i + 1)).bind fun p11 =>
    some (compute_2x2_newton_interpolation_fast
      (fun a b => if a = 0 then (if b = 0 then p00 else p01) else (if b = 0 then p10 else p11)))

/-- downscale (lines 167-180): the destination is width//2 by height//2 and
every destination pixel is produced by downscale_pixel?.  The whole call is
none when any pixel computation would raise. -/
def downscale? (img : Img) : Option Img :=
  if (∀ j, j < img.h / 2 → ∀ i, i < img.w / 2 → (downscale_pixel? img j i).isSome = true) then
    some ⟨img.h / 2, img.w / 2, fun j i c => ((downscale_pixel? img j i).getD (fun _ => 0)) c⟩
  else none

/-- Bounds-checked read from a single image row, modelling img_row[x] inside
process_row. -/
def row_read? (row : ℕ → Fin 3 → ℕ) (width x : ℕ) : Option (Fin 3 → ℕ) :=
  if x < width then some (row x) else none

/-- One output entry of process_row (lines 233-257).  Even output indices copy
the original pixel when x_orig < width (the zeros initialisation remains
otherwise); odd output indices get the interpolated midpoint
newton_interp_1d_numba([0,1], [row[x_orig], row[min(x_orig+1, width-1)]], 0.5)
cast with int(...), except that when x_orig + 1 >= width the last column is
copied. -/
def process_row_pixel? (row : ℕ → Fin 3 → ℕ) (width xn : ℕ) (c : Fin 3) : Option ℕ :=
  if xn % 2 = 0 then
    if xn / 2 < width then (row_read? row width (xn / 2)).map (fun p => p c) else some 0
  else
    if xn / 2 + 1 < width then
      (row_read? row width (xn / 2)).bind (fun p0 =>
        (row_read? row width (min (xn / 2 + 1) (width - 1))).bind (fun p1 =>
          (newton_interp_1d_numba 2 x01q (ypair (p0 c) (p1 c)) (1/2)).map
            (fun q => (⌊q⌋).toNat)))
    else (row_read? row width (width - 1)).map (fun p => p c)

/-- The state of the result array of process_column after its first loop
(lines 264-268): even indices hold the corresponding source-column pixel,
all other entries still hold the zeros initialisation. -/
def column_stage1 (col : ℕ → Fin 3 → ℕ) (height yn : ℕ) (c : Fin 3) : ℕ :=
  if yn % 2 = 0 ∧ yn / 2 < height then col (yn / 2) c else 0

/-- One output entry of process_column (lines 259-281).  Odd indices
interpolate between result[y-1] and result[min(y+1, new_height-1)] as the
array stands after the first loop — note that for y = new_height - 1 the
clamped second index is y itself, whose entry is still 0. -/
def process_column_pixel? (col : ℕ → Fin 3 → ℕ) (height new_height yn : ℕ) (c : Fin 3) : Option ℕ :=
  if yn % 2 = 1 then
    (newton_interp_1d_numba 2 x01q
      (ypair (column_stage1 col height (yn - 1) c)
             (column_stage1 col height (min (yn + 1) (new_height - 1)) c)) (1/2)).map
      (fun q => (⌊q⌋).toNat)
  else some (column_stage1 col height yn c)

/-- upscale (lines 283-309): pass 1 builds the horizontally interpolated
intermediate (one process_row per source row), pass 2 interpolates each
column of the intermediate vertically.  The output is 2*width by 2*height;
the whole call is none when any pixel computation would raise. -/
def upscale? (img : Img) : Option Img :=
  if (∀ y, y < img.h → ∀ x, x < 2 * img.w → ∀ c : Fin 3,
        (process_row_pixel? (fun x2 c2 => img.pix y x2 c2) img.w x c).isSome = true) then
    if (∀ x, x < 2 * img.w → ∀ y, y < 2 * img.h → ∀ c : Fin 3,
          (process_column_pixel?
            (fun y2 c2 => (process_row_pixel? (fun x3 c3 => img.pix y2 x3 c3) img.w x c2).getD 0)
            img.h (2 * img.h) y c).isSome = true) then
      some ⟨2 * img.h, 2 * img.w, fun y x c =>
        (process_column_pixel?
          (fun y2 c2 => (process_row_pixel? (fun x3 c3 => img.pix y2 x3 c3) img.w x c2).getD 0)
          img.h (2 * img.h) y c).getD 0⟩
    else none
  else none

/-- gaussian (lines 314-317): the Gaussian density
(1/(sigma*sqrt(2*pi))) * exp(-0.5*(x/sigma)^2). -/
noncomputable def gaussian (x sigma : ℝ) : ℝ :=
  (1 / (sigma * Real.sqrt (2 * Real.pi))) * Real.exp (-(0.5) * (x / sigma)^2)

/-- The unnormalized kernel built by create_gaussian_kernel_1d
(lines 327-332): for each index i in [0, 2*radius], with x = i - radius and
dx = 1, the entry is (gaussian(x - dx/2) + gaussian(x + dx/2)) * dx / 2. -/
noncomputable def gaussian_kernel_raw (radius : ℕ) (sigma : ℝ) : List ℝ :=
  (List.range (2 * radius + 1)).map (fun (i : ℕ) =>
    (gaussian ((i : ℝ) - radius - 1/2) sigma + gaussian ((i : ℝ) - radius + 1/2) sigma) * (1/2))

/-- create_gaussian_kernel_1d (lines 319-339): the trapezoidal kernel,
normalized by its sum when the sum is positive. -/
noncomputable def create_gaussian_kernel_1d (radius : ℕ) (sigma : ℝ) : List ℝ :=
  if 0 < (gaussian_kernel_raw radius sigma).sum then
    (gaussian_kernel_raw radius sigma).map (fun v => v / (gaussian_kernel_raw radius sigma).sum)
  else gaussian_kernel_raw radius sigma

/-- apply_blur_1d (lines 341-362): one 1D convolution pass over the
floating-point buffer, direction 0 horizontal and 1 vertical, with the
neighbour index clamped to the image extent (replicate border,
x_k = max(0, min(width-1, x+k))); the k of the source runs over [-r, r]
and is shifted here to [0, 2r]. -/
noncomputable def apply_blur_1d (src : ℕ → ℕ → Fin 3 → ℝ) (h w : ℕ) (kernel : List ℝ)
    (dir : ℕ) : ℕ → ℕ → Fin 3 → ℝ :=
  fun y x c =>
    ∑ k ∈ Finset.range (2 * (kernel.length / 2) + 1),
      (if dir = 0 then src y (min (w - 1) (x + k - kernel.length / 2)) c
       else src (min (h - 1) (y + k - kernel.length / 2)) x c) * kernel.getD k 0

/-- np.clip(v, 0, 255).astype(np.uint8) on a float value. -/
noncomputable def clip8 (v : ℝ) : ℕ := (⌊max 0 (min 255 v)⌋).toNat

/-- blur (lines 364-395): for radius <= 2 the PIL GaussianBlur shortcut (an
external collaborator, passed in as a parameter); otherwise sigma = radius/2,
the trapezoidal kernel, a horizontal then a vertical 1D pass over the float
buffer, and a single clip-and-cast to uint8 at the end. -/
noncomputable def blur_model (pil_gaussian : Img → ℕ → Img) (img : Img) (radius : ℕ) : Img :=
  if radius ≤ 2 then pil_gaussian img radius
  else
    ⟨img.h, img.w, fun y x c =>
      clip8 (apply_blur_1d
        (apply_blur_1d (fun y2 x2 c2 => (img.pix y2 x2 c2 : ℝ)) img.h img.w
          (create_gaussian_kernel_1d radius ((radius : ℝ) / 2)) 0)
        img.h img.w (create_gaussian_kernel_1d radius ((radius : ℝ) / 2)) 1 y x c)⟩

/-- Modelled from the spec (section 4.4): the separable blur described as a
single double convolution — kernel weight times kernel weight times the
source pixel looked up with replicate-clamped indices in both axes, clipped
to 8 bits only once at the end.  Used to compare the two sequential 1D
passes of blur_model against the specified behaviour. -/
noncomputable def separable_blur_spec_pixel (img : Img) (radius : ℕ) (y x : ℕ) (c : Fin 3) : ℕ :=
  clip8 (∑ k ∈ Finset.range (2 * radius + 1), ∑ j ∈ Finset.range (2 * radius + 1),
    (create_gaussian_kernel_1d radius ((radius : ℝ) / 2)).getD k 0 *
      ((create_gaussian_kernel_1d radius ((radius : ℝ) / 2)).getD j 0 *
        (img.pix (min (img.h - 1) (y + k - radius)) (min (img.w - 1) (x + j - radius)) c : ℝ)))

/-- The epsilon 1e-8 added for numerical stability in process_tile
(line 424). -/
noncomputable def bf_eps : ℝ := 1e-8

/-- fast_spatial_weights (lines 401-415): precomputed spatial weights
exp(-0.5*((i-r)^2+(j-r)^2)/sigma^2) (float32 in the source, idealized as
real). -/
noncomputable def fast_spatial_weights (radius : ℕ) (sigma : ℝ) : ℕ → ℕ → ℝ :=
  fun i j => Real.exp (-(0.5) * (((i : ℝ) - radius)^2 + ((j : ℝ) - radius)^2) / (sigma * sigma))

/-- The combined weight of one window cell in process_tile (lines 436-450):
precomputed spatial weight times the range weight
exp(-0.5*diff*diff/(color_sigma^2+eps)) where diff is centre minus
neighbour.  The window offsets wy, wx of the source run over [-r, r] and are
shifted here to i, j in [0, 2r]. -/
noncomputable def bilateral_weight (tile : ℕ → ℕ → Fin 3 → ℕ) (sw : ℕ → ℕ → ℝ) (cs : ℝ)
    (r y x : ℕ) (c : Fin 3) (i j : ℕ) : ℝ :=
  sw i j * Real.exp (-(0.5) * ((tile y x c : ℝ) - (tile (y + i - r) (x + j - r) c : ℝ))
    * ((tile y x c : ℝ) - (tile (y + i - r) (x + j - r) c : ℝ)) / (cs * cs + bf_eps))

/-- The weighted_sum accumulator of process_tile for one pixel and channel. -/
noncomputable def bilateral_wsum (tile : ℕ → ℕ → Fin 3 → ℕ) (sw : ℕ → ℕ → ℝ) (cs : ℝ)
    (r y x : ℕ) (c : Fin 3) : ℝ :=
  ∑ i ∈ Finset.range (2 * r + 1), ∑ j ∈ Finset.range (2 * r + 1),
    (tile (y + i - r) (x + j - r) c : ℝ) * bilateral_weight tile sw cs r y x c i j

/-- The weight_sum accumulator of process_tile for one pixel and channel. -/
noncomputable def bilateral_wtsum (tile : ℕ → ℕ → Fin 3 → ℕ) (sw : ℕ → ℕ → ℝ) (cs : ℝ)
    (r y x : ℕ) (c : Fin 3) : ℝ :=
  ∑ i ∈ Finset.range (2 * r + 1), ∑ j ∈ Finset.range (2 * r + 1),
    bilateral_weight tile sw cs r y x c i j

/-- The filtered value of one interior pixel of process_tile (lines 427-459):
weighted sum over the window normalized by the weight sum when the latter
exceeds eps (cast to uint8), otherwise the original value. -/
noncomputable def bilateral_pixel (tile : ℕ → ℕ → Fin 3 → ℕ) (sw : ℕ → ℕ → ℝ) (cs : ℝ)
    (r y x : ℕ) (c : Fin 3) : ℕ :=
  if bf_eps < bilateral_wtsum tile sw cs r y x c then
    (⌊bilateral_wsum tile sw cs r y x c / bilateral_wtsum tile sw cs r y x c⌋).toNat
  else tile y x c

/-- process_tile (lines 417-480): pixels at least radius away from every tile
edge are filtered with bilateral_pixel; all remaining (border) positions are
copied from the tile unchanged, exactly what the border-copy loops of the
source produce. -/
noncomputable def process_tile (tile : ℕ → ℕ → Fin 3 → ℕ) (h w : ℕ) (sw : ℕ → ℕ → ℝ)
    (cs : ℝ) (r : ℕ) : ℕ → ℕ → Fin 3 → ℕ :=
  fun y x c =>
    if r ≤ y ∧ y < h - r ∧ r ≤ x ∧ x < w - r then bilateral_pixel tile sw cs r y x c
    else tile y x c

/-- The radius selected at the top of fast_bilateral_filter (lines 490-495):
2 when use_smaller_window is set and a dimension exceeds 1000, otherwise
max(1, int(spatial_sigma * 1.5)). -/
noncomputable def fbf_radius (h w : ℕ) (spatial_sigma : ℝ) (usw : Bool) : ℕ :=
  if usw ∧ (1000 < h ∨ 1000 < w) then 2 else max 1 (⌊spatial_sigma * 1.5⌋).toNat

/-- The (possibly overridden) spatial sigma of fast_bilateral_filter
(lines 490-495). -/
noncomputable def fbf_sigma (h w : ℕ) (spatial_sigma : ℝ) (usw : Bool) : ℝ :=
  if usw ∧ (1000 < h ∨ 1000 < w) then 1.5 else spatial_sigma

/-- The replicate padding built by the small-image branch of
fast_bilateral_filter (lines 503-515): the four slice assignments (copy the
body, repeat the first/last row above/below, then repeat the completed
first/last columns left/right) produce exactly the edge-clamped lookup
img[min(h-1, y-r), min(w-1, x-r)] (natural subtraction clamps the top/left
underflow at 0, matching the repeat of row/column 0). -/
def pad_replicate (img : Img) (r : ℕ) : ℕ → ℕ → Fin 3 → ℕ :=
  fun y x c => img.pix (min (img.h - 1) (y - r)) (min (img.w - 1) (x - r)) c

/-- The small-image branch of fast_bilateral_filter (lines 501-521): pad by
radius with replicated edges, run process_tile on the padded buffer, and
crop the padding away, so output pixel (y, x) is padded-position
(y + r, x + r) of the processed buffer. -/
noncomputable def small_bilateral (img : Img) (spatial_sigma color_sigma : ℝ) (usw : Bool) : Img :=
  let r := fbf_radius img.h img.w spatial_sigma usw
  ⟨img.h, img.w, fun y x c =>
    process_tile (pad_replicate img r) (img.h + 2 * r) (img.w + 2 * r)
      (fast_spatial_weights r (fbf_sigma img.h img.w spatial_sigma usw))
      color_sigma r (y + r) (x + r) c⟩

/-- Tile geometry of the tiled branch of fast_bilateral_filter
(lines 523-568), per axis: the start of tile t with effective stride eff. -/
def tile_seg_start (eff t : ℕ) : ℕ := t * eff

/-- y_end / x_end of a tile: min(start + tile_size, size) with
tile_size = 512. -/
def tile_seg_end (size eff t : ℕ) : ℕ := min (t * eff + 512) size

/-- pad_y_after / pad_x_after of a tile: min(radius, size - end). -/
def tile_seg_pad_after (size eff t r : ℕ) : ℕ := min r (size - tile_seg_end size eff t)

/-- The first source index of the extracted (padded) tile:
max(0, start - radius), which is natural subtraction. -/
def tile_seg_lo (eff t r : ℕ) : ℕ := t * eff - r

/-- The extent of the extracted tile along one axis. -/
def tile_seg_len (size eff t r : ℕ) : ℕ :=
  tile_seg_end size eff t + tile_seg_pad_after size eff t r - tile_seg_lo eff t r

/-- valid_y_start / valid_x_start: radius except for the first tile. -/
def tile_valid_lo (eff t r : ℕ) : ℕ := if 0 < t * eff then r else 0

/-- valid_y_end / valid_x_end: the processed extent minus radius except when
the tile reaches the image edge. -/
def tile_valid_hi (size eff t r : ℕ) : ℕ :=
  if tile_seg_end size eff t < size then tile_seg_len size eff t r - r
  else tile_seg_len size eff t r

/-- result_y_start / result_x_start: start + radius except for the first
tile. -/
def tile_res_lo (eff t r : ℕ) : ℕ := if t * eff = 0 then 0 else t * eff + r

/-- Whether the slice assignment
result[res_lo:end, ...] = processed[valid_lo:valid_hi, ...] of one tile has
mismatched extents along one axis (numpy raises ValueError in that case;
note that a Python slice a:b with b < a is empty, matching truncated
natural subtraction). -/
def tile_mismatch (size eff t r : ℕ) : Bool :=
  decide (tile_seg_end size eff t - tile_res_lo eff t r ≠
    tile_valid_hi size eff t r - tile_valid_lo eff t r)

/-- Whether any tile of the tiled branch hits a mismatched slice assignment,
with n_tiles = ceil(size / effective_tile) per axis and
effective_tile = 512 - 2*radius. -/
def any_tile_mismatch (h w r : ℕ) : Bool :=
  (List.range ((h + (512 - 2 * r) - 1) / (512 - 2 * r))).any (fun ty =>
    (List.range ((w + (512 - 2 * r) - 1) / (512 - 2 * r))).any (fun tx =>
      tile_mismatch h (512 - 2 * r) ty r || tile_mismatch w (512 - 2 * r) tx r))

/-- The write of one processed tile into the result buffer (lines 550-568):
inside the destination rectangle the value comes from the processed tile at
the valid-region offset, outside it the accumulator is kept. -/
noncomputable def write_tile (img : Img) (sw : ℕ → ℕ → ℝ) (cs : ℝ) (r ty tx : ℕ)
    (acc : ℕ → ℕ → Fin 3 → ℕ) : ℕ → ℕ → Fin 3 → ℕ :=
  let eff := 512 - 2 * r
  let proc := process_tile
    (fun y x c => img.pix (tile_seg_lo eff ty r + y) (tile_seg_lo eff tx r + x) c)
    (tile_seg_len img.h eff ty r) (tile_seg_len img.w eff tx r) sw cs r
  fun y x c =>
    if tile_res_lo eff ty r ≤ y ∧ y < tile_seg_end img.h eff ty ∧
        tile_res_lo eff tx r ≤ x ∧ x < tile_seg_end img.w eff tx then
      proc (tile_valid_lo eff ty r + (y - tile_res_lo eff ty r))
        (tile_valid_lo eff tx r + (x - tile_res_lo eff tx r)) c
    else acc y x c

/-- All tile writes of the tiled branch in source order (row-major over
tiles, later writes overruling earlier ones), starting from the zeros
result buffer. -/
noncomputable def tiled_write_all (img : Img) (sw : ℕ → ℕ → ℝ) (cs : ℝ) (r : ℕ) :
    ℕ → ℕ → Fin 3 → ℕ :=
  ((List.range ((img.h + (512 - 2 * r) - 1) / (512 - 2 * r))).flatMap (fun ty =>
    (List.range ((img.w + (512 - 2 * r) - 1) / (512 - 2 * r))).map (fun tx => (ty, tx)))).foldl
    (fun acc p => write_tile img sw cs r p.1 p.2 acc) (fun _ _ _ => 0)

/-- The tiled branch of fast_bilateral_filter (lines 523-568): none when some
tile's slice assignment has mismatched shapes (numpy ValueError), otherwise
the assembled result. -/
noncomputable def tiled_bilateral? (img : Img) (spatial_sigma color_sigma : ℝ) (usw : Bool) :
    Option Img :=
  let r := fbf_radius img.h img.w spatial_sigma usw
  if any_tile_mismatch img.h img.w r then none
  else some ⟨img.h, img.w,
    tiled_write_all img (fast_spatial_weights r (fbf_sigma img.h img.w spatial_sigma usw))
      color_sigma r⟩

/-- fast_bilateral_filter (lines 484-570): images at most 1024 on each side
take the padded whole-image path, larger images the tiled path. -/
noncomputable def fast_bilateral_filter? (img : Img) (spatial_sigma color_sigma : ℝ)
    (usw : Bool) : Option Img :=
  if img.h ≤ 1024 ∧ img.w ≤ 1024 then some (small_bilateral img spatial_sigma color_sigma usw)
  else tiled_bilateral? img spatial_sigma color_sigma usw

/-- The blend of the fallback branch of denoise (lines 642-653):
uint8(original * blend_factor + filtered * (1 - blend_factor)) per channel. -/
def blend_images (orig filt : Img) (bf : ℚ) : Img :=
  ⟨orig.h, orig.w, fun y x c =>
    (⌊(orig.pix y x c : ℚ) * bf + (filt.pix y x c : ℚ) * (1 - bf)⌋).toNat⟩

/-- denoise (lines 576-655).  The PIL collaborators — GaussianBlur(1.5),
MedianFilter(3) and LANCZOS resizing — are external library calls and are
passed in as parameters.  The optimized path downsamples extremely large
images (area over 12_000_000) by half, runs fast_bilateral_filter for the
requested number of iterations (spatial_sigma 2.0, color_sigma the edge
threshold, use_smaller_window when a dimension of the original exceeds
1000), and resizes back; when that path faults (none) the fallback applies
the blur-then-median pipeline and, for edge_threshold > 50, blends it with
the original with blend_factor = min(0.8, edge_threshold/100) as the weight
of the original. -/
noncomputable def denoise_model (gb15 mf3 : Img → Img) (lanczos : Img → ℕ → ℕ → Img)
    (img : Img) (edge_threshold iterations : ℕ) : Img :=
  let usw : Bool := decide (1000 < img.w ∨ 1000 < img.h)
  let base : Img := if 12000000 < img.w * img.h then lanczos img (img.w / 2) (img.h / 2) else img
  let filtered : Option Img :=
    (List.range iterations).foldl
      (fun acc _ => acc.bind (fun im => fast_bilateral_filter? im 2 (edge_threshold : ℝ) usw))
      (some base)
  match filtered with
  | some res => if 12000000 < img.w * img.h then lanczos res img.w img.h else res
  | none =>
    let f := mf3 (gb15 img)
    if 50 < edge_threshold then
      blend_images img f (min (4/5 : ℚ) ((edge_threshold : ℚ) / 100))
    else f

/-- The concrete 1030 x 900 buffer used to exhibit the tiled-path fault (any
contents; constant grey here).  Width 1030 exceeds the tiling threshold
1024. -/
def c2img : Img := ⟨900, 1030, fun _ _ _ => 100⟩

/-- The concrete 2 x 2 image (one corner pixel of value 100, the rest 0) used
to exhibit that the small-image path filters image-border pixels instead of
copying them.  The corner value 100 keeps the counterexample far from any
floating-point knife edge: with color sigma 30 the range weight of a
dissenting neighbour is exp(-10000/(2*(900+1e-8))) which is about 3.9e-3,
many orders of magnitude above float64 rounding, and the filtered corner
value is about 99.35 — the float64 program and this exact-real model agree
that the truncated output is 99, not the input 100. -/
def c3img : Img := ⟨2, 2, fun y x _ => if y = 0 ∧ x = 0 then 100 else 0⟩

/-- The denoised output of c3img on the small-image path. -/
noncomputable def c3out : Img := (fast_bilateral_filter? c3img 2 30 false).getD default

theorem newton2_midpoint (a b : ℕ) :
    newton_interp_1d_numba 2 x01q (ypair a b) (1/2) = some (((a : ℚ) + b) / 2) := by
  unfold newton_interp_1d_numba x01q ypair
  norm_num
  ring

theorem newton2_below_half (a b : ℕ) (t : ℚ) (ht : t < 1/2) :
    newton_interp_1d_numba 2 x01q (ypair a b) t = some (sharpened_blend_spec a b t) := by
  unfold newton_interp_1d_numba x01q ypair sharpened_blend_spec
  norm_num [ht]

theorem toNat_floor_div_nat (s d : ℕ) : (⌊((s : ℚ) / (d : ℚ))⌋).toNat = s / d := by
  have h0 : (0 : ℚ) ≤ (s : ℚ) / (d : ℚ) := by positivity
  rw [← Int.natCast_floor_eq_floor h0, Int.toNat_natCast, Nat.floor_div_eq_div]

theorem process_row_pixel?_isSome (row : ℕ → Fin 3 → ℕ) (width xn : ℕ) (c : Fin 3)
    (hx : xn < 2 * width) : (process_row_pixel? row width xn c).isSome = true := by
  by_cases h2 : xn % 2 = 0
  · by_cases h3 : xn / 2 < width
    · simp [process_row_pixel?, row_read?, h2, h3]
    · simp [process_row_pixel?, h2, h3]
  · by_cases h3 : xn / 2 + 1 < width
    · have hl : xn / 2 < width := by omega
      have hm : min (xn / 2 + 1) (width - 1) < width := by omega
      simp [process_row_pixel?, row_read?, h2, h3, hl, hm, newton_interp_1d_numba]
    · have hw : width - 1 < width := by omega
      simp [process_row_pixel?, row_read?, h2, h3, hw]

theorem process_column_pixel?_isSome (col : ℕ → Fin 3 → ℕ) (height nh yn : ℕ) (c : Fin 3) :
    (process_column_pixel? col height nh yn c).isSome = true := by
  by_cases h2 : yn % 2 = 1 <;>
    simp [process_column_pixel?, h2, newton_interp_1d_numba]

theorem downscale_pixel?_isSome (img : Img) (j i : ℕ) (hj : j < img.h / 2)
    (hi : i < img.w / 2) : (downscale_pixel? img j i).isSome = true := by
  have hb : ¬(img.h ≤ 2*j + 1 ∨ img.w ≤ 2*i + 1) := by omega
  have h1 : 2*j < img.h := by omega
  have h2 : 2*j + 1 < img.h := by omega
  have h3 : 2*i < img.w := by omega
  have h4 : 2*i + 1 < img.w := by omega
  simp [downscale_pixel?, Img.read?, hb, h1, h2, h3, h4]

theorem downscale?_eq (img : Img) :
    downscale? img = some ⟨img.h / 2, img.w / 2,
      fun j i c => ((downscale_pixel? img j i).getD (fun _ => 0)) c⟩ := by
  unfold downscale?
  rw [if_pos]
  intro j hj i hi
  exact downscale_pixel?_isSome img j i hj hi

theorem upscale?_eq (img : Img) :
    upscale? img = some ⟨2 * img.h, 2 * img.w, fun y x c =>
      (process_column_pixel?
        (fun y2 c2 => (process_row_pixel? (fun x3 c3 => img.pix y2 x3 c3) img.w x c2).getD 0)
        img.h (2 * img.h) y c).getD 0⟩ := by
  have h1 : ∀ y, y < img.h → ∀ x, x < 2 * img.w → ∀ c : Fin 3,
      (process_row_pixel? (fun x2 c2 => img.pix y x2 c2) img.w x c).isSome = true :=
    fun y _ x hx c => process_row_pixel?_isSome _ _ _ _ hx
  have h2 : ∀ x, x < 2 * img.w → ∀ y, y < 2 * img.h → ∀ c : Fin 3,
      (process_column_pixel?
        (fun y2 c2 => (process_row_pixel? (fun x3 c3 => img.pix y2 x3 c3) img.w x c2).getD 0)
        img.h (2 * img.h) y c).isSome = true :=
    fun x _ y _ c => process_column_pixel?_isSome _ _ _ _ _
  unfold upscale?
  rw [if_pos h1, if_pos h2]

/-- C6: the resampler never faults: for every input image, including images of
width or height 0 or 1, downscale and upscale complete (every array read is in
bounds, modelled by the Option result being some) and return the minimal
valid output, of floor-halved resp. exactly doubled dimensions. -/
theorem C6_resampler_never_faults (img : Img) :
    (downscale? img).map Img.h = some (img.h / 2) ∧
    (downscale? img).map Img.w = some (img.w / 2) ∧
    (upscale? img).map Img.h = some (2 * img.h) ∧
    (upscale? img).map Img.w = some (2 * img.w) := by
  rw [downscale?_eq, upscale?_eq]
  exact ⟨rfl, rfl, rfl, rfl⟩

/-- C5: upscale exactly doubles both dimensions, downscale floor-halves both
dimensions, and the round trip downscale(upscale(img)) preserves width and
height of every non-degenerate image. -/
theorem C5_dims_roundtrip (img : Img) (hh : 1 ≤ img.h) (hw : 1 ≤ img.w) :
    (upscale? img).map Img.w = some (2 * img.w) ∧
    (upscale? img).map Img.h = some (2 * img.h) ∧
    (downscale? img).map Img.w = some (img.w / 2) ∧
    (downscale? img).map Img.h = some (img.h / 2) ∧
    ((upscale? img).bind downscale?).map Img.w = some img.w ∧
    ((upscale? img).bind downscale?).map Img.h = some img.h := by
  rw [upscale?_eq, downscale?_eq]
  refine ⟨rfl, rfl, rfl, rfl, ?_, ?_⟩ <;>
  · rw [Option.some_bind, downscale?_eq]
    simp only [Option.map_some']
    congr 1
    omega

theorem C5_dims_roundtrip_witness :
    1 ≤ (1 : ℕ) ∧
    ((upscale? ⟨1, 1, fun _ _ _ => 0⟩).map Img.w = some 2 ∧
     (upscale? ⟨1, 1, fun _ _ _ => 0⟩).map Img.h = some 2 ∧
     (downscale? ⟨1, 1, fun _ _ _ => 0⟩).map Img.w = some 0 ∧
     (downscale? ⟨1, 1, fun _ _ _ => 0⟩).map Img.h = some 0 ∧
     ((upscale? ⟨1, 1, fun _ _ _ => 0⟩).bind downscale?).map Img.w = some 1 ∧
     ((upscale? ⟨1, 1, fun _ _ _ => 0⟩).bind downscale?).map Img.h = some 1) :=
  ⟨le_refl 1, C5_dims_roundtrip ⟨1, 1, fun _ _ _ => 0⟩ (le_refl 1) (le_refl 1)⟩

/-- C1 counterexample: at the midpoint xEval = 0.5 the interpolation parameter
t is exactly 0.5, so the strict test t < 0.5 fails and the sharpening remap is
not applied: for the distinct samples 0 and 255 the 2-point path returns the
pure linear blend 127.5 = (0+255)/2, whereas the blend the claim asserts (the
remap applied at the midpoint) would give 255. -/
theorem C1_counterexample :
    newton_interp_1d_numba 2 x01q (ypair 0 255) (1/2) = some (((0 : ℚ) + 255) / 2) ∧
    sharpened_blend_spec 0 255 (1/2) = 255 ∧ ((0 : ℚ) + 255) / 2 ≠ 255 := by
  refine ⟨newton2_midpoint 0 255, ?_, by norm_num⟩
  unfold sharpened_blend_spec
  norm_num

/-- C1 (amended): the remap t' = 0.4 + 1.2*t is applied only for t strictly
below 0.5; at the midpoint xEval = 0.5 used by upscale the remap is skipped,
the 2-point interpolation is the pure linear blend (y0+y1)/2, and every
inserted pixel of process_row is the truncated average of its two
neighbours. -/
theorem C1_midpoint_pure_blend (a b : ℕ) (t : ℚ) (ht : t < 1/2)
    (row : ℕ → Fin 3 → ℕ) (width xn : ℕ) (c : Fin 3)
    (hodd : xn % 2 = 1) (hin : xn / 2 + 1 < width) :
    newton_interp_1d_numba 2 x01q (ypair a b) t = some (sharpened_blend_spec a b t) ∧
    newton_interp_1d_numba 2 x01q (ypair a b) (1/2) = some (((a : ℚ) + b) / 2) ∧
    process_row_pixel? row width xn c =
      some ((row (xn / 2) c + row (min (xn / 2 + 1) (width - 1)) c) / 2) := by
  refine ⟨newton2_below_half a b t ht, newton2_midpoint a b, ?_⟩
  have h2 : ¬(xn % 2 = 0) := by omega
  have hl : xn / 2 < width := by omega
  have hm : min (xn / 2 + 1) (width - 1) < width := by omega
  rw [process_row_pixel?, if_neg h2, if_pos hin]
  rw [row_read?, if_pos hl, Option.some_bind, row_read?, if_pos hm, Option.some_bind]
  rw [newton2_midpoint]
  rw [Option.map_some']
  congr 1
  have : ((row (xn / 2) c : ℚ) + (row (min (xn / 2 + 1) (width - 1)) c : ℚ)) / 2 =
      (((row (xn / 2) c + row (min (xn / 2 + 1) (width - 1)) c : ℕ) : ℚ) / ((2 : ℕ) : ℚ)) := by
    push_cast
    ring
  rw [this, toNat_floor_div_nat]

theorem C1_midpoint_pure_blend_witness :
    ((1 : ℚ)/4 < 1/2) ∧ ((1 : ℕ) % 2 = 1) ∧ (1 / 2 + 1 < 3) ∧
    (newton_interp_1d_numba 2 x01q (ypair 10 20) (1/4) = some (sharpened_blend_spec 10 20 (1/4)) ∧
     newton_interp_1d_numba 2 x01q (ypair 10 20) (1/2) = some (((10 : ℚ) + 20) / 2) ∧
     process_row_pixel? (fun _ _ => 7) 3 1 0 = some ((7 + 7) / 2)) :=
  ⟨by norm_num, by norm_num, by norm_num,
    C1_midpoint_pure_blend 10 20 (1/4) (by norm_num) (fun _ _ => 7) 3 1 0 (by norm_num)
      (by norm_num)⟩

theorem dd_fold_isSome (x_data y_data : ℕ → ℚ) (i : ℕ) (l : List ℕ) (acc : Option ℚ)
    (h : acc.isSome = true) :
    ((l.foldl (dd_step x_data y_data i) acc)).isSome = true := by
  induction l generalizing acc with
  | nil => exact h
  | cons j l ih =>
    apply ih
    obtain ⟨t, ht⟩ := Option.isSome_iff_exists.mp h
    rw [ht]
    unfold dd_step
    rw [Option.some_bind]
    by_cases hxx : x_data i = x_data j
    · simp [hxx]
    · have hnz : x_data i - x_data j ≠ 0 := sub_ne_zero.mpr hxx
      simp [hxx, hnz]

theorem dd_coeff_isSome (x_data y_data : ℕ → ℚ) (i : ℕ) :
    (dd_coeff x_data y_data i).isSome = true :=
  dd_fold_isSome x_data y_data i (List.range i) (some (y_data i)) rfl

theorem dd_fold_const (x_data y_data : ℕ → ℚ) (i : ℕ) (l : List ℕ) (t : ℚ)
    (hc : ∀ j, x_data j = x_data i) :
    l.foldl (dd_step x_data y_data i) (some t) = some t := by
  induction l generalizing t with
  | nil => rfl
  | cons j l ih =>
    rw [List.foldl_cons]
    have hstep : dd_step x_data y_data i (some t) j = some t := by
      unfold dd_step
      rw [Option.some_bind, if_pos (hc j).symm]
    rw [hstep]
    exact ih t

/-- C7 counterexample: with sample x-coordinates [0, 0, 1] (the first two
coincident) and y-values [5, 7, 9], the divided-difference table entry for
i = 1 is 7, not the explicit 0 fallback the claim asserts: the guard merely
skips the division step, leaving the term at y_data[1]. -/
theorem C7_counterexample :
    dd_coeff (fun i => if i ≤ 1 then 0 else 1)
      (fun i => if i = 0 then 5 else if i = 1 then 7 else 9) 1 = some 7 ∧
    (7 : ℚ) ≠ 0 := by
  constructor
  · rfl
  · norm_num

/-- C7 (amended): on the general path (n >= 3) coincident sample
x-coordinates never cause a division-by-zero fault — the conflicting update
is skipped with the term left unchanged (so for all-equal x-coordinates the
i-th divided difference is y_data[i], not 0) — and evaluation always
completes with a finite result clamped to [0, 255]. -/
theorem C7_coincident_x_safe (n : ℕ) (x_data y_data : ℕ → ℚ) (xe : ℚ) (hn : 3 ≤ n) :
    (newton_interp_1d_numba n x_data y_data xe).isSome = true ∧
    (∀ v, newton_interp_1d_numba n x_data y_data xe = some v → 0 ≤ v ∧ v ≤ 255) ∧
    (∀ i, (∀ j, x_data j = x_data i) → dd_coeff x_data y_data i = some (y_data i)) := by
  have hn2 : n ≠ 2 := by omega
  have hn0 : n ≠ 0 := by omega
  have hdd : ∀ i, i < n → (dd_coeff x_data y_data i).isSome = true :=
    fun i _ => dd_coeff_isSome x_data y_data i
  refine ⟨?_, ?_, ?_⟩
  · rw [newton_interp_1d_numba, if_neg hn2, if_neg hn0, if_pos hdd]
    rfl
  · intro v hv
    rw [newton_interp_1d_numba, if_neg hn2, if_neg hn0, if_pos hdd] at hv
    have hveq := Option.some_injective _ hv
    constructor
    · rw [← hveq]; exact le_max_left 0 _
    · rw [← hveq]
      exact max_le (by norm_num) (min_le_left 255 _)
  · intro i hc
    exact dd_fold_const x_data y_data i (List.range i) (y_data i) hc

theorem C7_coincident_x_safe_witness :
    3 ≤ 3 ∧
    (newton_interp_1d_numba 3 (fun _ => 0) (fun i => (i : ℚ)) 7).isSome = true :=
  ⟨le_refl 3, (C7_coincident_x_safe 3 (fun _ => 0) (fun i => (i : ℚ)) 7 (le_refl 3)).1⟩

/-- C10: the smooth-branch divided-difference formula of
compute_2x2_newton_interpolation_fast is algebraically the arithmetic mean of
the 2x2 block; for block values in [0, 255] the [0, 255] clamp is the
identity on that mean, so the smooth branch is exactly (truncated) block
averaging. -/
theorem C10_smooth_branch_is_mean (block : Fin 2 → Fin 2 → Fin 3 → ℕ) (c : Fin 3)
    (hb : ∀ a b, block a b c ≤ 255)
    (hsm : max (block 0 0 c : ℚ) (max (block 0 1 c) (max (block 1 0 c) (block 1 1 c))) -
        min (block 0 0 c : ℚ) (min (block 0 1 c) (min (block 1 0 c) (block 1 1 c))) ≤ 30) :
    newton_smooth (block 0 0 c) (block 0 1 c) (block 1 0 c) (block 1 1 c) =
      ((block 0 0 c : ℚ) + block 0 1 c + block 1 0 c + block 1 1 c) / 4 ∧
    max 0 (min 255 (((block 0 0 c : ℚ) + block 0 1 c + block 1 0 c + block 1 1 c) / 4)) =
      ((block 0 0 c : ℚ) + block 0 1 c + block 1 0 c + block 1 1 c) / 4 ∧
    compute_2x2_newton_interpolation_fast block c =
      (block 0 0 c + block 0 1 c + block 1 0 c + block 1 1 c) / 4 := by
  have hmean : newton_smooth (block 0 0 c) (block 0 1 c) (block 1 0 c) (block 1 1 c) =
      ((block 0 0 c : ℚ) + block 0 1 c + block 1 0 c + block 1 1 c) / 4 := by
    unfold newton_smooth
    ring
  have h0 : (0 : ℚ) ≤ ((block 0 0 c : ℚ) + block 0 1 c + block 1 0 c + block 1 1 c) / 4 := by
    positivity
  have h255 : ((block 0 0 c : ℚ) + block 0 1 c + block 1 0 c + block 1 1 c) / 4 ≤ 255 := by
    have b1 : (block 0 0 c : ℚ) ≤ 255 := by exact_mod_cast hb 0 0
    have b2 : (block 0 1 c : ℚ) ≤ 255 := by exact_mod_cast hb 0 1
    have b3 : (block 1 0 c : ℚ) ≤ 255 := by exact_mod_cast hb 1 0
    have b4 : (block 1 1 c : ℚ) ≤ 255 := by exact_mod_cast hb 1 1
    linarith
  have hclamp : max 0 (min 255 (((block 0 0 c : ℚ) + block 0 1 c + block 1 0 c + block 1 1 c) / 4)) =
      ((block 0 0 c : ℚ) + block 0 1 c + block 1 0 c + block 1 1 c) / 4 := by
    rw [min_eq_right h255, max_eq_right h0]
  refine ⟨hmean, hclamp, ?_⟩
  show (⌊max 0 (min 255 (if 30 < _ - _ then _ else newton_smooth _ _ _ _))⌋).toNat = _
  rw [if_neg (not_lt.mpr hsm), hmean, hclamp]
  have hcast : ((block 0 0 c : ℚ) + block 0 1 c + block 1 0 c + block 1 1 c) / 4 =
      (((block 0 0 c + block 0 1 c + block 1 0 c + block 1 1 c : ℕ) : ℚ) / ((4 : ℕ) : ℚ)) := by
    push_cast
    ring
  rw [hcast, toNat_floor_div_nat]

theorem C10_smooth_branch_is_mean_witness :
    (∀ a b : Fin 2, (fun _ _ _ => 100 : Fin 2 → Fin 2 → Fin 3 → ℕ) a b 0 ≤ 255) ∧
    compute_2x2_newton_interpolation_fast (fun _ _ _ => 100) 0 = (100 + 100 + 100 + 100) / 4 :=
  ⟨fun _ _ => by norm_num,
    (C10_smooth_branch_is_mean (fun _ _ _ => 100) 0 (fun _ _ => by norm_num)
      (by norm_num)).2.2⟩

theorem gaussian_pos (x sigma : ℝ) (hs : 0 < sigma) : 0 < gaussian x sigma := by
  unfold gaussian
  have h2p : (0 : ℝ) < Real.sqrt (2 * Real.pi) := Real.sqrt_pos.mpr (by positivity)
  positivity

theorem gaussian_kernel_raw_length (radius : ℕ) (sigma : ℝ) :
    (gaussian_kernel_raw radius sigma).length = 2 * radius + 1 := by
  rw [gaussian_kernel_raw, List.length_map, List.length_range]

theorem create_gaussian_kernel_1d_length (radius : ℕ) (sigma : ℝ) :
    (create_gaussian_kernel_1d radius sigma).length = 2 * radius + 1 := by
  unfold create_gaussian_kernel_1d
  split
  · rw [List.length_map]
    exact gaussian_kernel_raw_length radius sigma
  · exact gaussian_kernel_raw_length radius sigma

theorem list_sum_map_div (l : List ℝ) (s : ℝ) :
    (l.map (fun v => v / s)).sum = l.sum / s := by
  induction l with
  | nil => simp
  | cons a l ih => simp [ih, add_div]

theorem gaussian_kernel_raw_sum_pos (radius : ℕ) (sigma : ℝ) (hs : 0 < sigma) :
    0 < (gaussian_kernel_raw radius sigma).sum := by
  apply List.sum_pos
  · intro x hx
    unfold gaussian_kernel_raw at hx
    obtain ⟨i, hi, rfl⟩ := List.mem_map.mp hx
    have g1 := gaussian_pos ((i : ℝ) - radius - 1/2) sigma hs
    have g2 := gaussian_pos ((i : ℝ) - radius + 1/2) sigma hs
    linarith
  · intro hnil
    have hlen := gaussian_kernel_raw_length radius sigma
    rw [hnil] at hlen
    simp at hlen

/-- C4: for every radius r >= 0 and sigma > 0, the kernel has length 2r+1,
its pre-normalization weight at index i (offset i - r in [-r, r]) is the
trapezoidal cell value (gaussian(offset-0.5) + gaussian(offset+0.5)) * 0.5,
and the normalized kernel sums to 1 (hence to 1 within 1e-6). -/
theorem C4_gaussian_kernel (radius : ℕ) (sigma : ℝ) (hs : 0 < sigma) :
    (create_gaussian_kernel_1d radius sigma).length = 2 * radius + 1 ∧
    (∀ i, i < 2 * radius + 1 →
      (gaussian_kernel_raw radius sigma).getD i 0 =
        (gaussian ((i : ℝ) - radius - 1/2) sigma + gaussian ((i : ℝ) - radius + 1/2) sigma) * (1/2)) ∧
    |(create_gaussian_kernel_1d radius sigma).sum - 1| ≤ 1e-6 := by
  have hpos := gaussian_kernel_raw_sum_pos radius sigma hs
  refine ⟨create_gaussian_kernel_1d_length radius sigma, ?_, ?_⟩
  · intro i hi
    have hlt : i < (gaussian_kernel_raw radius sigma).length := by
      rw [gaussian_kernel_raw_length radius sigma]
      exact hi
    rw [List.getD_eq_getElem?_getD, List.getElem?_eq_getElem hlt, Option.getD_some]
    simp [gaussian_kernel_raw]
  · rw [create_gaussian_kernel_1d, if_pos hpos, list_sum_map_div, div_self (ne_of_gt hpos)]
    norm_num

theorem C4_gaussian_kernel_witness :
    (0 : ℝ) < 1 ∧ (create_gaussian_kernel_1d 1 1).length = 2 * 1 + 1 :=
  ⟨by norm_num, (C4_gaussian_kernel 1 1 (by norm_num)).1⟩

/-- C8: for every radius > 2, blur keeps the input dimensions and every output
pixel is the separable double convolution the spec describes: the horizontal
then the vertical 1D pass with the trapezoidal kernel (sigma = radius/2) over
the floating-point buffer with replicate-border index clamping, converted to
8 bits with clamping to [0, 255] only once, after both passes. -/
theorem apply_blur_compose (src : ℕ → ℕ → Fin 3 → ℝ) (h w : ℕ) (kernel : List ℝ) (r : ℕ)
    (hlen : kernel.length = 2 * r + 1) (y x : ℕ) (c : Fin 3) :
    apply_blur_1d (apply_blur_1d src h w kernel 0) h w kernel 1 y x c =
      ∑ k ∈ Finset.range (2 * r + 1), ∑ j ∈ Finset.range (2 * r + 1),
        kernel.getD k 0 *
          (kernel.getD j 0 * src (min (h - 1) (y + k - r)) (min (w - 1) (x + j - r)) c) := by
  have hl2 : kernel.length / 2 = r := by omega
  unfold apply_blur_1d
  rw [hl2]
  apply Finset.sum_congr rfl
  intro k _
  rw [if_neg (one_ne_zero : (1 : ℕ) ≠ 0), Finset.sum_mul]
  apply Finset.sum_congr rfl
  intro j _
  rw [if_pos rfl]
  ring

theorem C8_blur_separable (pil : Img → ℕ → Img) (img : Img) (radius : ℕ) (hr : 2 < radius) :
    (blur_model pil img radius).h = img.h ∧
    (blur_model pil img radius).w = img.w ∧
    (∀ y x c, (blur_model pil img radius).pix y x c = separable_blur_spec_pixel img radius y x c) := by
  have hnr : ¬(radius ≤ 2) := by omega
  have hlen := create_gaussian_kernel_1d_length radius ((radius : ℝ) / 2)
  rw [blur_model, if_neg hnr]
  refine ⟨rfl, rfl, ?_⟩
  intro y x c
  rw [separable_blur_spec_pixel]
  have hcomp := apply_blur_compose (fun y2 x2 c2 => (img.pix y2 x2 c2 : ℝ)) img.h img.w
    (create_gaussian_kernel_1d radius ((radius : ℝ) / 2)) radius hlen y x c
  exact congrArg clip8 hcomp

theorem C8_blur_separable_witness :
    2 < 3 ∧ (blur_model (fun i _ => i) ⟨1, 1, fun _ _ _ => 0⟩ 3).h = 1 :=
  ⟨by norm_num, (C8_blur_separable (fun i _ => i) ⟨1, 1, fun _ _ _ => 0⟩ 3 (by norm_num)).1⟩

theorem any_tile_mismatch_900_1030 : any_tile_mismatch 900 1030 2 = true := by decide

theorem fbf_none_900_1030 (img : Img) (cs : ℝ) (hh : img.h = 900) (hw : img.w = 1030) :
    fast_bilateral_filter? img 2 cs true = none := by
  have hr : fbf_radius 900 1030 (2 : ℝ) true = 2 := by
    unfold fbf_radius
    rw [if_pos ⟨rfl, Or.inr (by norm_num)⟩]
  unfold fast_bilateral_filter?
  rw [hh, hw]
  rw [if_neg (by norm_num : ¬((900 : ℕ) ≤ 1024 ∧ (1030 : ℕ) ≤ 1024))]
  unfold tiled_bilateral?
  rw [hh, hw, hr]
  rw [if_pos any_tile_mismatch_900_1030]

/-- C2 (code bug): on a 900 x 1030 image the tiled path of
fast_bilateral_filter aborts with a numpy shape error instead of producing an
output to compare with the untiled path: for the second column tile
(ty = 0, tx = 1, radius 2, effective stride 508) the destination slice
result[..., 510:1020] has 510 columns while the source slice
processed[..., 2:514] has 512, so the slice assignment raises and the tiled
path yields no image at all (modelled as none). -/
theorem C2_tiled_slice_mismatch :
    fast_bilateral_filter? c2img 2 30 true = none ∧
    tile_seg_end 1030 508 1 - tile_res_lo 508 1 2 = 510 ∧
    tile_valid_hi 1030 508 1 2 - tile_valid_lo 508 1 2 = 512 := by
  refine ⟨fbf_none_900_1030 c2img 30 rfl rfl, by decide, by decide⟩

theorem foldl_bind_none (f : Img → Option Img) (l : List ℕ) :
    l.foldl (fun acc _ => acc.bind f) none = none := by
  induction l with
  | nil => rfl
  | cons a l ih => exact ih

/-- C9: when the optimized denoise path faults, the denoiser recovers
internally — here shown on the 900 x 1030 images whose tiled pass always
faults (claim C2): the result is exactly the Gaussian-blur(1.5) composed with
median-filter(3) fallback, blended with the original with weight
min(0.8, edgeThreshold/100) on the original when edgeThreshold > 50 and
returned unblended otherwise; no fault is surfaced to the caller. -/
theorem C9_fallback_pipeline (gb15 mf3 : Img → Img) (lanczos : Img → ℕ → ℕ → Img)
    (img : Img) (et iter : ℕ) (hh : img.h = 900) (hw : img.w = 1030) (hiter : 1 ≤ iter) :
    denoise_model gb15 mf3 lanczos img et iter =
      (if 50 < et then blend_images img (mf3 (gb15 img)) (min (4/5 : ℚ) ((et : ℚ) / 100))
       else mf3 (gb15 img)) := by
  have harea : ¬(12000000 < img.w * img.h) := by
    rw [hh, hw]
    norm_num
  have husw : (decide (1000 < img.w ∨ 1000 < img.h)) = true := by
    rw [hh, hw]
    decide
  simp only [denoise_model]
  rw [husw, if_neg harea]
  have hnone : (List.range iter).foldl
      (fun acc _ => acc.bind (fun im => fast_bilateral_filter? im 2 (et : ℝ) true))
      (some img) = none := by
    obtain ⟨k, rfl⟩ : ∃ k, iter = k + 1 := ⟨iter - 1, by omega⟩
    rw [List.range_succ_eq_map, List.foldl_cons]
    have h1 : (some img).bind (fun im => fast_bilateral_filter? im 2 (et : ℝ) true) = none := by
      rw [Option.some_bind]
      exact fbf_none_900_1030 img (et : ℝ) hh hw
    rw [h1]
    exact foldl_bind_none _ _
  rw [hnone]

theorem C9_fallback_pipeline_witness :
    (Img.h ⟨900, 1030, fun _ _ _ => 0⟩ = 900) ∧ (Img.w ⟨900, 1030, fun _ _ _ => 0⟩ = 1030) ∧
    1 ≤ 1 ∧
    denoise_model (fun i => i) (fun i => i) (fun i _ _ => i) ⟨900, 1030, fun _ _ _ => 0⟩ 60 1 =
      (if 50 < 60 then
        blend_images ⟨900, 1030, fun _ _ _ => 0⟩ ⟨900, 1030, fun _ _ _ => 0⟩
          (min (4/5 : ℚ) ((60 : ℚ) / 100))
       else ⟨900, 1030, fun _ _ _ => 0⟩) :=
  ⟨rfl, rfl, le_refl 1,
    C9_fallback_pipeline (fun i => i) (fun i => i) (fun i _ _ => i) ⟨900, 1030, fun _ _ _ => 0⟩
      60 1 rfl rfl (le_refl 1)⟩

theorem bilateral_weight_pos (tile : ℕ → ℕ → Fin 3 → ℕ) (r0 : ℕ) (s cs : ℝ)
    (r y x : ℕ) (c : Fin 3) (i j : ℕ) :
    0 < bilateral_weight tile (fast_spatial_weights r0 s) cs r y x c i j :=
  mul_pos (Real.exp_pos _) (Real.exp_pos _)

theorem fbf_radius_2_2 : fbf_radius 2 2 (2 : ℝ) false = 3 := by
  have h3 : (2 : ℝ) * 1.5 = ((3 : ℤ) : ℝ) := by norm_num
  unfold fbf_radius
  rw [if_neg (by simp), h3, Int.floor_intCast]
  rfl

theorem fbf_sigma_2_2 : fbf_sigma 2 2 (2 : ℝ) false = 2 := by
  unfold fbf_sigma
  rw [if_neg (by simp)]

theorem c3_fbf_eq :
    fast_bilateral_filter? c3img 2 30 false = some (small_bilateral c3img 2 30 false) := by
  unfold fast_bilateral_filter?
  rw [if_pos ⟨by norm_num [c3img], by norm_num [c3img]⟩]

theorem c3_pad_le (y x : ℕ) (c : Fin 3) : pad_replicate c3img 3 y x c ≤ 100 := by
  dsimp only [pad_replicate, c3img]
  split
  · exact le_refl 100
  · exact Nat.zero_le 100

theorem c3_W33 (c : Fin 3) :
    bilateral_weight (pad_replicate c3img 3) (fast_spatial_weights 3 2) 30 3 3 3 c 3 3 = 1 := by
  have hp : pad_replicate c3img 3 3 3 c = 100 := rfl
  unfold bilateral_weight fast_spatial_weights
  rw [hp]
  norm_num

theorem c3_wtsum_ge (c : Fin 3) :
    1 ≤ bilateral_wtsum (pad_replicate c3img 3) (fast_spatial_weights 3 2) 30 3 3 3 c := by
  have hrow := Finset.single_le_sum
    (f := fun j => bilateral_weight (pad_replicate c3img 3) (fast_spatial_weights 3 2)
      30 3 3 3 c 3 j)
    (fun j _ => le_of_lt (bilateral_weight_pos (pad_replicate c3img 3) 3 2 30 3 3 3 c 3 j))
    (Finset.mem_range.mpr (by norm_num : 3 < 2 * 3 + 1))
  simp only at hrow
  rw [c3_W33 c] at hrow
  have houter := Finset.single_le_sum
    (f := fun i => ∑ j ∈ Finset.range (2 * 3 + 1),
      bilateral_weight (pad_replicate c3img 3) (fast_spatial_weights 3 2) 30 3 3 3 c i j)
    (fun i _ => Finset.sum_nonneg
      (fun j _ => le_of_lt (bilateral_weight_pos (pad_replicate c3img 3) 3 2 30 3 3 3 c i j)))
    (Finset.mem_range.mpr (by norm_num : 3 < 2 * 3 + 1))
  simp only at houter
  unfold bilateral_wtsum
  exact le_trans hrow houter

theorem c3_wt_gt_eps (c : Fin 3) :
    bf_eps < bilateral_wtsum (pad_replicate c3img 3) (fast_spatial_weights 3 2) 30 3 3 3 c := by
  have h1 := c3_wtsum_ge c
  have h2 : bf_eps < 1 := by norm_num [bf_eps]
  linarith

theorem c3_wsum_lt (c : Fin 3) :
    bilateral_wsum (pad_replicate c3img 3) (fast_spatial_weights 3 2) 30 3 3 3 c <
      100 * bilateral_wtsum (pad_replicate c3img 3) (fast_spatial_weights 3 2) 30 3 3 3 c := by
  unfold bilateral_wsum bilateral_wtsum
  rw [Finset.mul_sum]
  apply Finset.sum_lt_sum
  · intro i _
    rw [Finset.mul_sum]
    apply Finset.sum_le_sum
    intro j _
    have hle : ((pad_replicate c3img 3 (3 + i - 3) (3 + j - 3) c : ℕ) : ℝ) ≤ 100 := by
      exact_mod_cast c3_pad_le (3 + i - 3) (3 + j - 3) c
    exact mul_le_mul_of_nonneg_right hle
      (le_of_lt (bilateral_weight_pos _ _ _ _ _ _ _ _ _ _))
  · refine ⟨3, Finset.mem_range.mpr (by norm_num), ?_⟩
    rw [Finset.mul_sum]
    apply Finset.sum_lt_sum
    · intro j _
      have hle : ((pad_replicate c3img 3 (3 + 3 - 3) (3 + j - 3) c : ℕ) : ℝ) ≤ 100 := by
        exact_mod_cast c3_pad_le (3 + 3 - 3) (3 + j - 3) c
      exact mul_le_mul_of_nonneg_right hle
        (le_of_lt (bilateral_weight_pos _ _ _ _ _ _ _ _ _ _))
    · refine ⟨4, Finset.mem_range.mpr (by norm_num), ?_⟩
      have h34 : pad_replicate c3img 3 (3 + 3 - 3) (3 + 4 - 3) c = 0 := rfl
      rw [h34]
      rw [Nat.cast_zero, zero_mul]
      exact mul_pos (by norm_num) (bilateral_weight_pos _ _ _ _ _ _ _ _ _ _)

theorem c3_filtered_lt (c : Fin 3) :
    bilateral_pixel (pad_replicate c3img 3) (fast_spatial_weights 3 2) 30 3 3 3 c < 100 := by
  unfold bilateral_pixel
  rw [if_pos (c3_wt_gt_eps c)]
  have hpos : (0 : ℝ) < bilateral_wtsum (pad_replicate c3img 3) (fast_spatial_weights 3 2) 30 3 3 3 c := by
    have := c3_wtsum_ge c
    linarith
  have havg : bilateral_wsum (pad_replicate c3img 3) (fast_spatial_weights 3 2) 30 3 3 3 c /
      bilateral_wtsum (pad_replicate c3img 3) (fast_spatial_weights 3 2) 30 3 3 3 c < 100 :=
    (div_lt_iff₀ hpos).mpr (c3_wsum_lt c)
  have hfl : ⌊bilateral_wsum (pad_replicate c3img 3) (fast_spatial_weights 3 2) 30 3 3 3 c /
      bilateral_wtsum (pad_replicate c3img 3) (fast_spatial_weights 3 2) 30 3 3 3 c⌋ < (100 : ℤ) := by
    apply Int.floor_lt.mpr
    exact_mod_cast havg
  omega

/-- C3 counterexample: on the small-image path border pixels are NOT copied
unfiltered: for the 2 x 2 image with corner value 100 and the parameters the
denoiser uses (spatial sigma 2, so radius 3; color sigma 30), the corner
output pixel — which lies within radius of every image edge — is a weighted
average strictly below 100 (concretely about 99.35, so the uint8 truncation
yields 99 with a wide margin against float64 rounding), and therefore
differs from the input pixel 100.  (The replicate padding makes every image
pixel interior to the padded tile, so every image pixel, border included, is
filtered.) -/
theorem C3_counterexample :
    (fast_bilateral_filter? c3img 2 30 false).isSome = true ∧
    c3img.pix 0 0 0 = 100 ∧ c3out.pix 0 0 0 < 100 := by
  have heq := c3_fbf_eq
  refine ⟨by rw [heq]; rfl, rfl, ?_⟩
  have hout : c3out = small_bilateral c3img 2 30 false := by
    unfold c3out
    rw [heq]
    rfl
  rw [hout]
  have hpix : (small_bilateral c3img 2 30 false).pix 0 0 0 =
      bilateral_pixel (pad_replicate c3img 3) (fast_spatial_weights 3 2) 30 3 3 3 0 := by
    show process_tile (pad_replicate c3img (fbf_radius c3img.h c3img.w 2 false))
        (c3img.h + 2 * fbf_radius c3img.h c3img.w 2 false)
        (c3img.w + 2 * fbf_radius c3img.h c3img.w 2 false)
        (fast_spatial_weights (fbf_radius c3img.h c3img.w 2 false)
          (fbf_sigma c3img.h c3img.w 2 false))
        30 (fbf_radius c3img.h c3img.w 2 false)
        (0 + fbf_radius c3img.h c3img.w 2 false) (0 + fbf_radius c3img.h c3img.w 2 false) 0 = _
    have hch : c3img.h = 2 := rfl
    have hcw : c3img.w = 2 := rfl
    rw [hch, hcw, fbf_radius_2_2, fbf_sigma_2_2]
    simp only [process_tile]
    rw [if_pos (by norm_num)]
  rw [hpix]
  exact c3_filtered_lt 0

/-- C3 (amended): within process_tile, pixels within radius of the TILE
border are copied unfiltered; but on the small-image path the image is
replicate-padded by radius before process_tile runs, so every image pixel —
image borders included — sits in the interior of the padded tile and receives
the filtered bilateral_pixel value, not an unfiltered copy. -/
theorem C3_tile_border_copy (tile : ℕ → ℕ → Fin 3 → ℕ) (th tw : ℕ)
    (sw : ℕ → ℕ → ℝ) (cs : ℝ) (r y x : ℕ) (c : Fin 3)
    (hb : ¬(r ≤ y ∧ y < th - r ∧ r ≤ x ∧ x < tw - r))
    (img : Img) (ss cs2 : ℝ) (usw : Bool) (y2 x2 : ℕ) (c2 : Fin 3)
    (hy2 : y2 < img.h) (hx2 : x2 < img.w) :
    process_tile tile th tw sw cs r y x c = tile y x c ∧
    (small_bilateral img ss cs2 usw).pix y2 x2 c2 =
      bilateral_pixel (pad_replicate img (fbf_radius img.h img.w ss usw))
        (fast_spatial_weights (fbf_radius img.h img.w ss usw) (fbf_sigma img.h img.w ss usw))
        cs2 (fbf_radius img.h img.w ss usw)
        (y2 + fbf_radius img.h img.w ss usw) (x2 + fbf_radius img.h img.w ss usw) c2 := by
  constructor
  · simp only [process_tile]
    rw [if_neg hb]
  · show process_tile (pad_replicate img (fbf_radius img.h img.w ss usw))
        (img.h + 2 * fbf_radius img.h img.w ss usw)
        (img.w + 2 * fbf_radius img.h img.w ss usw)
        (fast_spatial_weights (fbf_radius img.h img.w ss usw) (fbf_sigma img.h img.w ss usw))
        cs2 (fbf_radius img.h img.w ss usw)
        (y2 + fbf_radius img.h img.w ss usw) (x2 + fbf_radius img.h img.w ss usw) c2 = _
    simp only [process_tile]
    rw [if_pos]
    refine ⟨Nat.le_add_left _ _, by omega, Nat.le_add_left _ _, by omega⟩

theorem C3_tile_border_copy_witness :
    (¬((1 : ℕ) ≤ 0 ∧ 0 < 1 - (1 : ℕ) ∧ (1 : ℕ) ≤ 0 ∧ 0 < 1 - (1 : ℕ))) ∧
    (0 < (1 : ℕ)) ∧
    process_tile (fun _ _ _ => 3) 1 1 (fast_spatial_weights 1 1) 5 1 0 0 0 = 3 :=
  ⟨by decide, by decide,
    (C3_tile_border_copy (fun _ _ _ => 3) 1 1 (fast_spatial_weights 1 1) 5 1 0 0 0
      (by decide) ⟨1, 1, fun _ _ _ => 9⟩ 1 7 false 0 0 0 (by decide) (by decide)).1⟩
